import Mathlib

/-!
Verification of the commit-parsing / filtering / extraction pipeline of the
`chglog` package (commit parser, commit filter, commit extractor).

The Go sources are shallowly embedded: pure Go functions become Lean
functions, mutation becomes explicit state passing, Go `nil`-able pointers
become `Option`, and operations that can panic in Go (string slicing and
array indexing out of bounds, nil-pointer dereference) return
`Except PanicKind _` with an explicit panic marker.

Compiled regular expressions held by the parser (all built from
configuration strings) are embedded as abstract matching functions
(`Matchers`); concrete instances of those functions, corresponding to a
concrete configuration, are defined further below for the scenario proofs.
-/

set_option linter.unusedVariables false

namespace Chglog

/-! ## Basic string helpers (structural, so that concrete proofs reduce) -/

/-- Whitespace test used by `trimString` (Go `strings.TrimSpace`). -/
def wsChar (c : Char) : Bool :=
  c = ' ' || c = '\t' || c = '\n' || c = '\r'

/-- Drop leading and trailing whitespace of a character list. -/
def trimChars (cs : List Char) : List Char :=
  ((cs.dropWhile wsChar).reverse.dropWhile wsChar).reverse

/-- Go `strings.TrimSpace`. -/
def trimString (s : String) : String :=
  String.mk (trimChars s.toList)

/-- Split a character list at every occurrence of the character `sep`
(Go `strings.Split` with a one-character separator). -/
def splitChar (sep : Char) : List Char → List (List Char)
  | [] => [[]]
  | c :: cs =>
    let r := splitChar sep cs
    if c = sep then [] :: r
    else
      match r with
      | h :: t => (c :: h) :: t
      | [] => [[c]]

/-- Split a string at every occurrence of the character `sep`. -/
def splitStringChar (sep : Char) (s : String) : List String :=
  (splitChar sep s.toList).map String.mk

/-- Prefix test on character lists (Go `strings.Index(s, pre) == 0`). -/
def isPrefixList : List Char → List Char → Bool
  | [], _ => true
  | _ :: _, [] => false
  | p :: ps, c :: cs => p = c && isPrefixList ps cs

/-- Fuel-driven split of a character list on a multi-character separator
(Go `strings.Split`).  The fuel is an upper bound on the input length; the
wrapper `splitOnStr` supplies enough fuel, so the fuel never runs out. -/
def splitOnListF (sep : List Char) : Nat → List Char → List (List Char)
  | 0, cs => [cs]
  | _ + 1, [] => [[]]
  | fuel + 1, c :: cs =>
    if isPrefixList sep (c :: cs) then
      match splitOnListF sep fuel ((c :: cs).drop sep.length) with
      | r => [] :: r
    else
      match splitOnListF sep fuel cs with
      | h :: t => (c :: h) :: t
      | [] => [[c]]

/-- Go `strings.Split(s, sep)` for a non-empty multi-character separator. -/
def splitOnStr (sep : String) (s : String) : List String :=
  (splitOnListF sep.toList (s.toList.length + 1) s.toList).map String.mk

/-- Join a list of strings with the separator `sep` (Go `strings.Join`). -/
def joinWith (sep : String) : List String → String
  | [] => ""
  | [s] => s
  | s :: rest => s ++ sep ++ joinWith sep rest

/-- Lexicographic comparison of character lists (Go `<` on strings). -/
def charListLt : List Char → List Char → Bool
  | [], [] => false
  | [], _ :: _ => true
  | _ :: _, [] => false
  | a :: as, b :: bs => if a < b then true else if b < a then false else charListLt as bs

/-- Lexicographic string comparison (Go `a < b`). -/
def stringLt (a b : String) : Bool :=
  charListLt a.toList b.toList

/-- Case normalization used by the filter and extractor: Go lowercases both
sides with `strings.ToLower` when case-insensitivity is configured. -/
def normCase (noCaseSensitive : Bool) (s : String) : String :=
  if noCaseSensitive then s.toLower else s

/-! ## Data model

The `Commit` record and its components.  The Go struct (declared outside the
provided sources) is described by the specification's data model; nil-able
pointer fields become `Option`, and the dynamically bound fields (Type,
Scope, Subject, JiraIssueID, ... — populated by positional capture-group
binding) are modelled as an association list `fields`. -/

structure Hash where
  long : String
  short : String
deriving DecidableEq, Repr

structure Author where
  name : String
  email : String
  date : Int
deriving DecidableEq, Repr

structure Committer where
  name : String
  email : String
  date : Int
deriving DecidableEq, Repr

structure Note where
  title : String
  body : String
deriving DecidableEq, Repr

structure Ref where
  action : String
  source : String
  ref : String
deriving DecidableEq, Repr

structure Contact where
  name : String
  email : String
deriving DecidableEq, Repr

structure JiraIssueData where
  jtype : String
  summary : String
  description : String
  labels : List String
deriving DecidableEq, Repr

/-- All fields of a commit except its sub-commits.
`fields` is the association list of dynamically bound fields (see above). -/
structure CommitData where
  hash : Option Hash := none
  author : Option Author := none
  committer : Option Committer := none
  header : String := ""
  fields : List (String × String) := []
  body : String := ""
  trimmedBody : String := ""
  notes : List Note := []
  refs : List Ref := []
  mentions : List String := []
  coAuthors : List Contact := []
  signers : List Contact := []
  merge : Option (List (String × String)) := none
  revert : Option (List (String × String)) := none
  jiraIssue : Option JiraIssueData := none
  changedFiles : List String := []
deriving DecidableEq, Repr

/-- A commit: its data plus its (one-level) list of sub-commits. -/
inductive Commit where
  | mk (data : CommitData) (subCommits : List Commit) : Commit

def Commit.data : Commit → CommitData
  | .mk d _ => d

def Commit.subCommits : Commit → List Commit
  | .mk _ s => s

/-- Modelled from the spec: the dynamically bound `JiraIssueID` field
(a concrete struct field in Go, reachable through the positional binding). -/
def CommitData.jiraIssueID (c : CommitData) : String :=
  (c.fields.lookup "JiraIssueID").getD ""

/-! ## Dynamic field access (`dotGet`) and positional binding

`dotGet`, `assignDynamicValues` and `compare` live in a source file that is
not part of the provided sources (only their callers are), so they are
modelled from the specification. -/

/-- A value produced by dynamic field resolution: either a string or some
non-string (composite) value. -/
inductive DynValue where
  | str (s : String) : DynValue
  | composite : DynValue
deriving DecidableEq, Repr

/-- Modelled from the spec: set one dynamically bound field by name
(replacing an existing binding, else appending). -/
def setDynField : List (String × String) → String → String → List (String × String)
  | [], name, v => [(name, v)]
  | (n, w) :: rest, name, v =>
    if n = name then (n, v) :: rest else (n, w) :: setDynField rest name v

/-- Modelled from the spec: `assignDynamicValues` binds regex capture groups
positionally to the configured field names ("an ordered list maps capture
index → field name"). -/
def assignDynamicValues (fields : List (String × String))
    (maps vals : List String) : List (String × String) :=
  (maps.zip vals).foldl (fun fs p => setDynField fs p.1 p.2) fields

/-- The names of the dynamically bound string fields of the Go `Commit`
struct (the spec names Type, Scope, Subject and JiraIssueID). -/
def dynFieldNames : List String := ["Type", "Scope", "Subject", "JiraIssueID"]

/-- Modelled from the spec: `dotGet` resolves a dotted field-path string
against a commit, case-sensitively; it fails (returns `none`) on absent
fields and nil intermediates, and resolves struct-valued paths to a
non-string value. Dynamic string fields are always present in the Go struct
(empty string when unbound). -/
def CommitData.dotGet (c : CommitData) (path : String) : Option DynValue :=
  if dynFieldNames.contains path then
    some (.str ((c.fields.lookup path).getD ""))
  else
    match path with
    | "Header" => some (.str c.header)
    | "Body" => some (.str c.body)
    | "TrimmedBody" => some (.str c.trimmedBody)
    | "Hash" => c.hash.map fun _ => .composite
    | "Hash.Long" => c.hash.map fun h => .str h.long
    | "Hash.Short" => c.hash.map fun h => .str h.short
    | "Author" => c.author.map fun _ => .composite
    | "Author.Name" => c.author.map fun a => .str a.name
    | "Author.Email" => c.author.map fun a => .str a.email
    | "Committer" => c.committer.map fun _ => .composite
    | _ => none

/-! ## The commit filter (`commit_filter.go`) -/

/-- One predicate pair of the filter: satisfied iff the resolved value is a
string that equals (after optional case normalization of both sides) at
least one allowed value (`commit_filter.go` lines 30-65, one iteration). -/
def pairSat (c : CommitData) (noCaseSensitive : Bool)
    (kv : String × List String) : Bool :=
  match c.dotGet kv.1 with
  | some (.str s) =>
    kv.2.any fun v => normCase noCaseSensitive s == normCase noCaseSensitive v
  | _ => false

/-- The `include` loop of `commitFilter`: `inc` is the running value of the
Go `include` variable; a failing pair breaks out with `false`, a passing
pair sets it to `true`. -/
def includeGo (c : CommitData) (noCaseSensitive : Bool) :
    List (String × List String) → Bool → Bool
  | [], inc => inc
  | kv :: rest, _ =>
    if pairSat c noCaseSensitive kv then includeGo c noCaseSensitive rest true
    else false

/-- Inclusion test of `commitFilter` for one expanded commit: `include`
starts `false`, is set `true` when the filter map is empty, then the
predicate loop runs. -/
def commitInclude (c : Commit) (filters : List (String × List String))
    (noCaseSensitive : Bool) : Bool :=
  includeGo c.data noCaseSensitive filters filters.isEmpty

/-- `commitFilter` (`commit_filter.go`): expand each commit into itself
followed by its sub-commits, then keep the expanded commits passing the
inclusion test, in order.  The Go `filters` map is embedded as an
association list (the loop result is order-independent). -/
def commitFilter (commits : List Commit) (filters : List (String × List String))
    (noCaseSensitive : Bool) : List Commit :=
  let expandedCommits := commits.flatMap fun c => c :: c.subCommits
  expandedCommits.filter fun c => commitInclude c filters noCaseSensitive

/-! ## The commit parser (data plumbing)

The parser struct holds compiled regular expressions, all built from
configuration strings (`newCommitParser`).  They are embedded as abstract
matching functions with the result shapes the Go code consumes:

* `headerMatch` / `mergeMatch` / `revertMatch`: `res[0][1:]` of
  `FindAllStringSubmatch` — the capture groups of the first match, or `none`;
* `refMatch`: all matches of the reference regex as `(action, source, ref)`;
* `issueMatch`: all matches of the bare-issue regex (the issue number);
* `notesMatch`: all matches of the anchored note regex as `(title, rest)`;
* `notesStrip`: `reNotes.ReplaceAllString(input, "")`;
* `mentionMatch`: all mention names; `signOffMatch` / `coAuthorMatch`: all
  trailer contacts; `jiraDescMatch`: first submatch of the description regex. -/

structure Matchers where
  headerMatch : String → Option (List String)
  mergeMatch : String → Option (List String)
  revertMatch : String → Option (List String)
  refMatch : String → List (String × String × String)
  issueMatch : String → List String
  notesMatch : String → List (String × String)
  notesStrip : String → String
  mentionMatch : String → List String
  signOffMatch : String → List Contact
  coAuthorMatch : String → List Contact
  jiraDescMatch : String → Option String

/-- The configuration options consumed by the parser and extractor
(the `Config.Options` fields the provided sources read). -/
structure Options where
  headerPatternMaps : List String := []
  mergePatternMaps : List String := []
  revertPatternMaps : List String := []
  multilineCommit : Bool := false
  processor : Option (Commit → Option Commit) := none
  jiraTypeMaps : List (String × String) := []
  jiraIssueDescriptionPattern : String := ""
  commitFilters : List (String × List String) := []
  noCaseSensitive : Bool := false
  commitGroupBy : String := ""
  commitGroupSortBy : String := ""
  commitGroupTitleOrder : List String := []
  commitGroupTitleMaps : List (String × String) := []
  commitSortBy : String := ""

/-- The VCS client, reduced to the two invocations the parser makes:
the one-shot `log` call and the per-commit `diff-tree` call (keyed by the
short hash passed as argument). -/
structure Client where
  execLog : Except String String
  diffTree : String → Except String String

/-- The issue-tracker client. -/
structure JiraClientM where
  getIssue : String → Except String JiraIssueData

/-- Panic outcomes of the Go code: out-of-range string slicing, out-of-range
array indexing, nil-pointer dereference. -/
inductive PanicKind where
  | sliceOutOfRange
  | indexOutOfRange
  | nilDeref
deriving DecidableEq, Repr

/-- The record separator token (`separator`). -/
def separator : String := "@@__CHGLOG__@@"

/-- The field delimiter token (`delimiter`). -/
def delimiter : String := "@@__CHGLOG_DELIMITER__@@"

/-- Modelled from the spec ("normalize line endings"): `convNewline`
rewrites CRLF and lone CR to LF. -/
def convNewlineChars : List Char → List Char
  | [] => []
  | '\r' :: '\n' :: rest => '\n' :: convNewlineChars rest
  | '\r' :: rest => '\n' :: convNewlineChars rest
  | c :: rest => c :: convNewlineChars rest

/-- Modelled from the spec: line-ending normalization applied to the body. -/
def convNewline (s : String) : String :=
  String.mk (convNewlineChars s.toList)

/-- Triple equality check of `uniqRefs` (`commit_parser` lines 450). -/
def sameRef (a b : Ref) : Bool :=
  a.ref == b.ref && a.action == b.action && a.source == b.source

/-- `uniqRefs`: keep the first occurrence of every `(Action, Source, Ref)`
triple, preserving order. -/
def uniqRefs (refs : List Ref) : List Ref :=
  refs.foldl (fun arr ref => if arr.any fun r => sameRef ref r then arr else arr ++ [ref]) []

/-- `uniqMentions`: keep the first occurrence of every mention string. -/
def uniqMentions (mentions : List String) : List String :=
  mentions.foldl (fun arr m => if arr.any fun x => m == x then arr else arr ++ [m]) []

/-- `parseRefs`: action references from the reference regex, then bare issue
references for issue numbers not already present in the accumulated list. -/
def parseRefs (m : Matchers) (input : String) : List Ref :=
  let refs := (m.refMatch input).map fun t => Ref.mk t.1 t.2.1 t.2.2
  (m.issueMatch input).foldl
    (fun acc r1 => if acc.any fun r => r.ref == r1 then acc else acc ++ [Ref.mk "" "" r1])
    refs

/-- The recognized fence markers, in the order the Go `fenceTypes` slice
lists them: triple backtick, triple tilde, four-space indent, tab. -/
def fenceTypes : List String := ["```", "~~~", "    ", "\t"]

/-- `mdFenceDetector.Update`: outside a fence (`none`), the first marker the
line starts with opens a fence; inside fence `f`, only a line starting with
marker `f` closes it. -/
def fenceUpdate (fence : Option (Fin 4)) (line : String) : Option (Fin 4) :=
  match fence with
  | none =>
    if isPrefixList "```".toList line.toList then some 0
    else if isPrefixList "~~~".toList line.toList then some 1
    else if isPrefixList "    ".toList line.toList then some 2
    else if isPrefixList "\t".toList line.toList then some 3
    else none
  | some f =>
    if isPrefixList (fenceTypes.get f).toList line.toList then none else some f

/-- `processJiraIssue`: on lookup failure log and leave the commit
unchanged; on success map the issue type to a commit type, attach the issue,
and optionally reduce the description via the description pattern. -/
def processJiraIssue (m : Matchers) (opts : Options) (jira : JiraClientM)
    (c : CommitData) : CommitData :=
  match jira.getIssue c.jiraIssueID with
  | .error _ => c
  | .ok issue =>
    let desc :=
      if opts.jiraIssueDescriptionPattern ≠ "" then
        match m.jiraDescMatch issue.description with
        | some d => d
        | none => issue.description
      else issue.description
    { c with
      fields := setDynField c.fields "Type" ((opts.jiraTypeMaps.lookup issue.jtype).getD "")
      jiraIssue := some { jtype := issue.jtype, summary := issue.summary,
                          description := desc, labels := issue.labels } }

/-- `processHeader`: raw header, positional field binding from the header
pattern, merge and revert binding, header refs and mentions, optional Jira
enrichment. -/
def processHeader (m : Matchers) (opts : Options) (jira : JiraClientM)
    (c : CommitData) (input : String) : CommitData :=
  let c := { c with header := input }
  let c :=
    match m.headerMatch input with
    | some gs => { c with fields := assignDynamicValues c.fields opts.headerPatternMaps gs }
    | none => c
  let c :=
    match m.mergeMatch input with
    | some gs => { c with merge := some (assignDynamicValues [] opts.mergePatternMaps gs) }
    | none => c
  let c :=
    match m.revertMatch input with
    | some gs => { c with revert := some (assignDynamicValues [] opts.revertPatternMaps gs) }
    | none => c
  let c := { c with refs := parseRefs m input, mentions := m.mentionMatch input }
  if c.jiraIssueID ≠ "" then processJiraIssue m opts jira c else c

/-- One sub-commit of the multiline-commit branch of `processBody`: a body
line matching the header pattern becomes a fresh commit with its own header,
positionally bound fields, refs and mentions, inheriting the parent's
current Hash, Author, Committer and ChangedFiles values. -/
def mkSubCommit (m : Matchers) (opts : Options) (jira : JiraClientM)
    (parent : CommitData) (line : String) : Option CommitData :=
  match m.headerMatch line with
  | none => none
  | some gs =>
    let sub : CommitData :=
      { header := line
        hash := parent.hash
        author := parent.author
        committer := parent.committer
        changedFiles := parent.changedFiles
        fields := assignDynamicValues [] opts.headerPatternMaps gs
        refs := parseRefs m line
        mentions := m.mentionMatch line }
    some (if sub.jiraIssueID ≠ "" then processJiraIssue m opts jira sub else sub)

/-- The state carried through the body loop of `processBody`: the commit's
accumulated metadata lists, the fresh notes list, the collected untrimmed
lines, and the `inNote` / `trim` / fence-detector variables. -/
structure BodyState where
  notes : List Note := []
  refs : List Ref := []
  mentions : List String := []
  coAuthors : List Contact := []
  signers : List Contact := []
  trimmed : List String := []
  inNote : Bool := false
  trim : Bool := false
  fence : Option (Fin 4) := none
deriving Repr

/-- Append a continuation line to the body of the last open note
(`commit.Notes[len(commit.Notes)-1]`); indexing an empty list panics. -/
def appendToLastNote : List Note → String → Option (List Note)
  | [], _ => none
  | [n], line => some [{ n with body := n.body ++ "\n" ++ line }]
  | n :: n2 :: rest, line => (appendToLastNote (n2 :: rest) line).map (n :: ·)

/-- `extractLineMetadata` applied to the body-loop state: refs, mentions,
co-authors and sign-offs of the line are appended; the returned flag tells
whether any matched. -/
def extractLineMetadata (m : Matchers) (st : BodyState) (line : String) :
    Bool × BodyState :=
  let refs := parseRefs m line
  let mentions := m.mentionMatch line
  let coAuthors := m.coAuthorMatch line
  let signers := m.signOffMatch line
  let meta := !refs.isEmpty || !mentions.isEmpty || !coAuthors.isEmpty || !signers.isEmpty
  (meta,
   { st with
     refs := if refs.isEmpty then st.refs else st.refs ++ refs
     mentions := if mentions.isEmpty then st.mentions else st.mentions ++ mentions
     coAuthors := if coAuthors.isEmpty then st.coAuthors else st.coAuthors ++ coAuthors
     signers := if signers.isEmpty then st.signers else st.signers ++ signers })

/-- Loop-start trim reset: `if !inNote { trim = false }`. -/
def resetTrim (st : BodyState) : BodyState :=
  if !st.inNote then { st with trim := false } else st

/-- `fenceDetector.Update(line)` applied to the loop state. -/
def applyFence (st : BodyState) (line : String) : BodyState :=
  { st with fence := fenceUpdate st.fence line }

/-- The metadata extraction step: outside a code block run
`extractLineMetadata`, and when it matched mark the line for removal and
close any open note. -/
def applyMetadata (m : Matchers) (st : BodyState) (line : String) : BodyState :=
  let p := if st.fence.isNone then extractLineMetadata m st line else (false, st)
  if p.1 then { p.2 with trim := true, inNote := false } else p.2

/-- The note step: a note-pattern match opens a note (and marks the line
for removal); otherwise an open note absorbs the line as a continuation
(indexing the empty note list panics). -/
def applyNotes (m : Matchers) (st : BodyState) (line : String) :
    Except PanicKind BodyState :=
  match m.notesMatch line with
  | r :: rest =>
    .ok { st with
      inNote := true, trim := true
      notes := st.notes ++ ((r :: rest).map fun q => { title := q.1, body := q.2 }) }
  | [] =>
    if st.inNote then
      match appendToLastNote st.notes line with
      | none => .error .indexOutOfRange
      | some notes => .ok { st with notes := notes }
    else .ok st

/-- The collection step: a line not marked for removal joins the trimmed
body. -/
def emitTrimmed (st : BodyState) (line : String) : BodyState :=
  if !st.trim then { st with trimmed := st.trimmed ++ [line] } else st

/-- One iteration of the notes/refs/mentions loop of `processBody`
(`commit_parser` lines 332-362): the four statement groups of the Go loop
body, in order. -/
def bodyStep (m : Matchers) (st : BodyState) (line : String) :
    Except PanicKind BodyState :=
  (applyNotes m (applyMetadata m (applyFence (resetTrim st) line) line) line).map
    (emitTrimmed · line)

/-- The notes/refs/mentions loop of `processBody` over all body lines. -/
def bodyLoop (m : Matchers) : BodyState → List String → Except PanicKind BodyState
  | st, [] => .ok st
  | st, line :: rest => do
    let st' ← bodyStep m st line
    bodyLoop m st' rest

/-- `trimSpaceInNotes`. -/
def trimSpaceInNotes (notes : List Note) : List Note :=
  notes.map fun n => { n with body := trimString n.body }

/-- The state the notes/refs/mentions loop starts from: the commit's
accumulated metadata lists, everything else at its zero value. -/
def initialBodyState (c : CommitData) : BodyState :=
  { refs := c.refs, mentions := c.mentions,
    coAuthors := c.coAuthors, signers := c.signers }

/-- The sub-commits the multiline branch of `processBody` builds: the
note-stripped body is split into lines and every header-matching line
becomes a sub-commit of the parent. -/
def bodySubCommits (m : Matchers) (opts : Options) (jira : JiraClientM)
    (c : CommitData) (input : String) : List CommitData :=
  if opts.multilineCommit then
    (splitStringChar '\n' (m.notesStrip input)).filterMap (mkSubCommit m opts jira c)
  else []

/-- Write the body-loop results back into the commit: notes (whitespace
trimmed), metadata lists, and the joined trimmed body. -/
def finishBody (c : CommitData) (st : BodyState) : CommitData :=
  { c with
    notes := trimSpaceInNotes st.notes
    refs := st.refs
    mentions := st.mentions
    coAuthors := st.coAuthors
    signers := st.signers
    trimmedBody := trimString (joinWith "\n" st.trimmed) }

/-- `processBody`: normalize line endings, store the raw body, build
sub-commits from note-stripped body lines when multiline splitting is
enabled, then run the notes/refs/mentions loop over the original body lines
and assemble the trimmed body.  Returns the updated commit data and the
sub-commits appended by this call. -/
def processBody (m : Matchers) (opts : Options) (jira : JiraClientM)
    (c : CommitData) (input : String) : Except PanicKind (CommitData × List CommitData) :=
  (bodyLoop m (initialBodyState { c with body := convNewline input })
      (splitStringChar '\n' (convNewline input))).map
    fun st =>
      (finishBody { c with body := convNewline input } st,
       bodySubCommits m opts jira { c with body := convNewline input } (convNewline input))

/-! ## Per-record parsing (`parseCommit`) -/

/-- The numeric value of a digit run. -/
def digitsVal (cs : List Char) : Nat :=
  cs.foldl (fun n c => n * 10 + (c.toNat - 48)) 0

/-- An all-digit run parses to its value; anything else fails. -/
def parseDigits (cs : List Char) : Option Nat :=
  if cs.isEmpty then none
  else if cs.all Char.isDigit then some (digitsVal cs)
  else none

/-- Go `strconv.Atoi`: optional sign followed by a non-empty digit run
(overflow, which Atoi also rejects, is not modelled — timestamps fit). -/
def atoiGo (s : String) : Option Int :=
  match s.toList with
  | [] => none
  | c :: rest =>
    if c = '-' then (parseDigits rest).map fun n => -(n : Int)
    else if c = '+' then (parseDigits rest).map fun n => (n : Int)
    else (parseDigits (c :: rest)).map fun n => (n : Int)

/-- `parseHash`: tab-split the value into long and short hash; fewer than
two components is an out-of-range index. -/
def parseHash (value : String) : Except PanicKind Hash :=
  match splitStringChar '\t' value with
  | long :: short :: _ => .ok { long := long, short := short }
  | _ => .error .indexOutOfRange

/-- `parseAuthor`: tab-split the value into name, email and Unix timestamp
(0 when the timestamp does not parse); fewer than three components is an
out-of-range index. -/
def parseAuthor (value : String) : Except PanicKind Author :=
  match splitStringChar '\t' value with
  | name :: email :: ts :: _ =>
    .ok { name := name, email := email, date := (atoiGo ts).getD 0 }
  | _ => .error .indexOutOfRange

/-- The `switch field` of `parseCommit`'s token loop, applied to one field
name and its (whitespace-trimmed) value. -/
def stepField (m : Matchers) (opts : Options) (jira : JiraClientM)
    (st : CommitData × List CommitData) (field value : String) :
    Except PanicKind (CommitData × List CommitData) :=
  if field = "HASH" then
    (parseHash value).map fun h => ({ st.1 with hash := some h }, st.2)
  else if field = "AUTHOR" then
    (parseAuthor value).map fun a => ({ st.1 with author := some a }, st.2)
  else if field = "COMMITTER" then
    (parseAuthor value).map fun a =>
      ({ st.1 with committer := some { name := a.name, email := a.email, date := a.date } }, st.2)
  else if field = "SUBJECT" then
    .ok (processHeader m opts jira st.1 value, st.2)
  else if field = "BODY" then
    (processBody m opts jira st.1 value).map fun p => (p.1, st.2 ++ p.2)
  else .ok st

/-- One `NAME:value` field token of `parseCommit`'s loop: slicing with the
colon index panics when the token has no colon. -/
def stepToken (m : Matchers) (opts : Options) (jira : JiraClientM)
    (st : CommitData × List CommitData) (token : String) :
    Except PanicKind (CommitData × List CommitData) :=
  match token.toList.findIdx? (fun c => c = ':') with
  | none => .error .sliceOutOfRange
  | some i =>
    stepField m opts jira st (String.mk (token.toList.take i))
      (trimString (String.mk (token.toList.drop (i + 1))))

/-- The field-token loop of `parseCommit`. -/
def buildCommitData (m : Matchers) (opts : Options) (jira : JiraClientM)
    (input : String) : Except PanicKind (CommitData × List CommitData) :=
  (splitOnStr delimiter input).foldlM (stepToken m opts jira) ({}, [])

/-- The tail of `parseCommit` after the token loop: deduplicate refs and
mentions, then fetch the changed files for the commit's short hash
(dereferencing a nil hash panics; a failed diff query is an error).  The
dedup is pure and leaves the hash untouched, so performing the hash match
first is observationally the Go order. -/
def finishCommit (cl : Client) (c0 : CommitData) (subs : List CommitData) :
    Except PanicKind (Except String Commit) :=
  match c0.hash with
  | none => .error .nilDeref
  | some h =>
    match cl.diffTree h.short with
    | .error e => .ok (.error e)
    | .ok out =>
      let c := { c0 with refs := uniqRefs c0.refs, mentions := uniqMentions c0.mentions }
      let c := if out.length > 0 then { c with changedFiles := splitStringChar '\n' out } else c
      .ok (.ok (Commit.mk c (subs.map fun s => Commit.mk s [])))

/-- `parseCommit`: the field-token loop followed by the dedup / changed-
files tail. -/
def parseCommit (m : Matchers) (opts : Options) (cl : Client) (jira : JiraClientM)
    (input : String) : Except PanicKind (Except String Commit) :=
  match buildCommitData m opts jira input with
  | .error p => .error p
  | .ok (c0, subs) => finishCommit cl c0 subs

/-- The post-processor application: a configured processor may replace the
commit or return nothing. -/
def applyProcessor (opts : Options) (commit : Commit) : Option Commit :=
  match opts.processor with
  | some f => f commit
  | none => some commit

/-- The per-record loop of `Parse`: the result slice is pre-sized to the
number of records and filled by index, so a record discarded by the
post-processor leaves a `none` slot. -/
def parseLines (m : Matchers) (opts : Options) (cl : Client) (jira : JiraClientM) :
    List String → Except PanicKind (Except String (List (Option Commit)))
  | [] => .ok (.ok [])
  | line :: rest =>
    match parseCommit m opts cl jira line with
    | .error p => .error p
    | .ok (.error e) => .ok (.error e)
    | .ok (.ok commit) =>
      match parseLines m opts cl jira rest with
      | .error p => .error p
      | .ok (.error e) => .ok (.error e)
      | .ok (.ok entries) => .ok (.ok (applyProcessor opts commit :: entries))

/-- `Parse`: run the VCS log invocation, split its output on the record
separator, drop the text before the first separator, and parse each record. -/
def Parse (m : Matchers) (opts : Options) (cl : Client) (jira : JiraClientM) :
    Except PanicKind (Except String (List (Option Commit))) :=
  match cl.execLog with
  | .error e => .ok (.error e)
  | .ok out => parseLines m opts cl jira ((splitOnStr separator out).drop 1)

/-! ## The commit extractor (`commit_extractor.go`) -/

structure CommitGroup where
  rawTitle : String
  title : String
  commits : List Commit

structure NoteGroup where
  title : String
  notes : List Note

/-- Capitalize the first character of a word. -/
def capitalizeWord (w : String) : String :=
  match w.toList with
  | [] => ""
  | c :: rest => String.mk (c.toUpper :: rest)

/-- Modelled from the Go standard library's `strings.Title` as the spec
describes it ("default-capitalized RawTitle"): capitalize each
space-separated word. -/
def titleCase (s : String) : String :=
  joinWith " " ((splitStringChar ' ' s).map capitalizeWord)

/-- `commitGroupTitle`: resolve the group-by field; a string value is the
raw title, with the display title looked up in the title-override map or
default-capitalized. -/
def commitGroupTitle (opts : Options) (c : Commit) : String × String :=
  match c.data.dotGet opts.commitGroupBy with
  | some (.str v) => (v, (opts.commitGroupTitleMaps.lookup v).getD (titleCase v))
  | _ => ("", "")

/-- Append the commit to the last group whose raw title matches (after
optional case normalization); the flag reports whether a group matched.
Matching groups are unique by construction, so "last" and "first" agree. -/
def appendToMatchingGroup (noCase : Bool) (raw : String) (c : Commit) :
    List CommitGroup → Bool × List CommitGroup
  | [] => (false, [])
  | g :: gs =>
    let (found, gs') := appendToMatchingGroup noCase raw c gs
    if found then (true, g :: gs')
    else if normCase noCase g.rawTitle == normCase noCase raw then
      (true, { g with commits := g.commits ++ [c] } :: gs)
    else (false, g :: gs)

/-- `processCommitGroups`: append to the matching group, else create a new
group when the raw title is non-empty. -/
def processCommitGroups (opts : Options) (groups : List CommitGroup)
    (c : Commit) : List CommitGroup :=
  let (raw, ttl) := commitGroupTitle opts c
  let (found, groups') := appendToMatchingGroup opts.noCaseSensitive raw c groups
  if found then groups'
  else if raw ≠ "" then
    groups ++ [{ rawTitle := raw, title := ttl, commits := [c] }]
  else groups

/-- `appendNoteToNoteGroups`: append the note to every group with the same
title (unique by construction), else create a new group. -/
def appendNoteToNoteGroups (groups : List NoteGroup) (note : Note) :
    List NoteGroup :=
  if groups.any fun g => g.title == note.title then
    groups.map fun g =>
      if g.title == note.title then { g with notes := g.notes ++ [note] } else g
  else groups ++ [{ title := note.title, notes := [note] }]

/-- `processNoteGroups`: distribute the commit's notes over the note
groups. -/
def processNoteGroups (groups : List NoteGroup) (c : Commit) : List NoteGroup :=
  c.data.notes.foldl appendNoteToNoteGroups groups

/-- Insert an element into a list sorted by the strict `less` function,
before the first element that is not `less` than it (the stable insertion
position). -/
def insertSorted (less : α → α → Bool) (a : α) : List α → List α
  | [] => [a]
  | b :: bs => if less b a then b :: insertSorted less a bs else a :: b :: bs

/-- Sort by the strict `less` function (a stable sort; it realizes
`sort.Slice` / `sort.SliceStable`, whose ascending order is all the Go code
relies on). -/
def sortByLess (less : α → α → Bool) : List α → List α
  | [] => []
  | a :: as => insertSorted less a (sortByLess less as)

/-- The custom-order index of a raw title: the index of its last occurrence
in the configured title-order list, defaulting to 0 for absent titles
(Go map writes `order[t] = i` in order, and a missing key reads as 0). -/
def orderIdx (ord : List String) (t : String) : Nat :=
  (ord.enum.foldl (fun acc p => if p.2 == t then some p.1 else acc) none).getD 0

/-- Modelled from the spec: the dynamic field accessor applied to a commit
group (string fields only). -/
def CommitGroup.dotGet (g : CommitGroup) (path : String) : Option DynValue :=
  match path with
  | "Title" => some (.str g.title)
  | "RawTitle" => some (.str g.rawTitle)
  | _ => none

/-- Modelled from the spec: `compare(a, "<", b)` — strings compare
lexicographically; mismatched or unsupported kinds are a type-mismatch
error. -/
def compareLess (a b : DynValue) : Except String Bool :=
  match a, b with
  | .str x, .str y => .ok (stringLt x y)
  | _, _ => .error "type mismatch"

/-- The group less-function of `sortCommitGroups`: custom order by title
index, else by the configured field path with any resolution or comparison
failure treated as "not less". -/
def groupLess (opts : Options) (g h : CommitGroup) : Bool :=
  if opts.commitGroupSortBy == "Custom" then
    decide (orderIdx opts.commitGroupTitleOrder g.rawTitle <
            orderIdx opts.commitGroupTitleOrder h.rawTitle)
  else
    match g.dotGet opts.commitGroupSortBy with
    | none => false
    | some a =>
      match h.dotGet opts.commitGroupSortBy with
      | none => false
      | some b =>
        match compareLess a b with
        | .error _ => false
        | .ok r => r

/-- The commit less-function of the per-group `sort.SliceStable`. -/
def commitLess (opts : Options) (a b : Commit) : Bool :=
  match a.data.dotGet opts.commitSortBy with
  | none => false
  | some x =>
    match b.data.dotGet opts.commitSortBy with
    | none => false
    | some y =>
      match compareLess x y with
      | .error _ => false
      | .ok r => r

/-- `sortCommitGroups`: sort the groups, then each group's commits. -/
def sortCommitGroups (opts : Options) (groups : List CommitGroup) :
    List CommitGroup :=
  (sortByLess (groupLess opts) groups).map fun g =>
    { g with commits := sortByLess (commitLess opts) g.commits }

/-- `sortNoteGroups`: groups and their notes alphabetically,
case-insensitively by title. -/
def sortNoteGroups (groups : List NoteGroup) : List NoteGroup :=
  (sortByLess (fun g h => stringLt g.title.toLower h.title.toLower) groups).map
    fun g =>
      { g with notes := sortByLess (fun a b => stringLt a.title.toLower b.title.toLower) g.notes }

/-- `Extract`: bucket merge and revert commits from the unexpanded input,
filter (which expands sub-commits), build commit groups from the filtered
non-merge non-revert commits and note groups from all filtered commits,
then sort. -/
def Extract (opts : Options) (commits : List Commit) :
    List CommitGroup × List Commit × List Commit × List NoteGroup :=
  let filteredCommits := commitFilter commits opts.commitFilters opts.noCaseSensitive
  let buckets := commits.foldl
    (fun (p : List Commit × List Commit) c =>
      if c.data.merge.isSome then (p.1 ++ [c], p.2)
      else if c.data.revert.isSome then (p.1, p.2 ++ [c])
      else p)
    ([], [])
  let grouped := filteredCommits.foldl
    (fun (p : List CommitGroup × List NoteGroup) c =>
      let gs :=
        if c.data.merge.isNone && c.data.revert.isNone then
          processCommitGroups opts p.1 c
        else p.1
      (gs, processNoteGroups p.2 c))
    ([], [])
  (sortCommitGroups opts grouped.1, buckets.1, buckets.2, sortNoteGroups grouped.2)

/-! ## A concrete matcher instance

The scenario claims fix a configuration: reference actions `["Fixes"]`,
issue prefix `["#"]`, note keywords `["BREAKING CHANGE"]`, header pattern
`^(fix|feat): (.*)$` with capture maps `["Type", "Subject"]`, and merge /
revert / Jira patterns that match none of the scenario inputs.  The
functions below implement the compiled regexes of `newCommitParser` for
that configuration (leftmost, non-overlapping matches). -/

/-- Case-insensitive prefix test (for `(?i)` patterns). -/
def ciPrefixList : List Char → List Char → Bool
  | [], _ => true
  | _ :: _, [] => false
  | p :: ps, c :: cs => p.toLower = c.toLower && ciPrefixList ps cs

/-- Character class `[\w-]` of the mention pattern. -/
def mentionCh (c : Char) : Bool :=
  c.isAlphanum || c = '_' || c = '-'

/-- Character class `[\w/\.\-]` of the reference source group. -/
def sourceCh (c : Char) : Bool :=
  c.isAlphanum || c = '_' || c = '/' || c = '.' || c = '-'

/-- Name characters `[\p{L}\s\-\[\]]` of the trailer patterns (ASCII). -/
def nameCh (c : Char) : Bool :=
  c.isAlpha || wsChar c || c = '-' || c = '[' || c = ']'

/-- Email characters `[\w+\-\[\].@]` of the trailer patterns. -/
def emailCh (c : Char) : Bool :=
  c.isAlphanum || c = '_' || c = '+' || c = '-' || c = '[' || c = ']' || c = '.' || c = '@'

/-- All matches of the bare-issue pattern `(?:#)(\d+)`: each `#` followed by
a maximal non-empty digit run yields the digit run. -/
def scanIssuesF : Nat → List Char → List String
  | 0, _ => []
  | _ + 1, [] => []
  | fuel + 1, c :: rest =>
    if c = '#' then
      let ds := rest.takeWhile Char.isDigit
      if ds.isEmpty then scanIssuesF fuel rest
      else String.mk ds :: scanIssuesF fuel (rest.drop ds.length)
    else scanIssuesF fuel rest

/-- Try the reference pattern `(?i)(Fixes)\s?([\w/\.\-]+)?(?:#)(\d+)` at the
head of the input; returns `(action, source, ref)` and the rest. -/
def tryFixesAt (cs : List Char) : Option ((String × String × String) × List Char) :=
  if ciPrefixList "fixes".toList cs then
    let action := String.mk (cs.take 5)
    let rest := cs.drop 5
    let rest1 :=
      match rest with
      | c :: t => if wsChar c then t else rest
      | [] => rest
    let src := rest1.takeWhile sourceCh
    match rest1.drop src.length with
    | '#' :: r2 =>
      let ds := r2.takeWhile Char.isDigit
      if ds.isEmpty then none
      else some ((action, String.mk src, String.mk ds), r2.drop ds.length)
    | _ => none
  else none

/-- All matches of the reference pattern, leftmost non-overlapping. -/
def scanRefsF : Nat → List Char → List (String × String × String)
  | 0, _ => []
  | _ + 1, [] => []
  | fuel + 1, c :: rest =>
    match tryFixesAt (c :: rest) with
    | some (r, remaining) => r :: scanRefsF fuel remaining
    | none => scanRefsF fuel rest

/-- All matches of the mention pattern `@([\w-]+)`. -/
def scanMentionsF : Nat → List Char → List String
  | 0, _ => []
  | _ + 1, [] => []
  | fuel + 1, c :: rest =>
    if c = '@' then
      let ds := rest.takeWhile mentionCh
      if ds.isEmpty then scanMentionsF fuel rest
      else String.mk ds :: scanMentionsF fuel (rest.drop ds.length)
    else scanMentionsF fuel rest

/-- Try a trailer pattern `MARKER\s+(NAME)\s+<(EMAIL)>` at the head of the
input. -/
def tryTrailerAt (marker : List Char) (cs : List Char) : Option (Contact × List Char) :=
  if isPrefixList marker cs then
    let rest := cs.drop marker.length
    let ws1 := rest.takeWhile wsChar
    if ws1.isEmpty then none
    else
      let rest1 := rest.drop ws1.length
      let run := rest1.takeWhile nameCh
      let name := (run.reverse.dropWhile wsChar).reverse
      if name.isEmpty || name.length = run.length then none
      else
        match rest1.drop run.length with
        | '<' :: r3 =>
          let em := r3.takeWhile emailCh
          if em.isEmpty then none
          else
            match r3.drop em.length with
            | '>' :: r4 => some (⟨String.mk name, String.mk em⟩, r4)
            | _ => none
        | _ => none
  else none

/-- All matches of a trailer pattern, leftmost non-overlapping. -/
def scanTrailersF (marker : List Char) : Nat → List Char → List Contact
  | 0, _ => []
  | _ + 1, [] => []
  | fuel + 1, c :: rest =>
    match tryTrailerAt marker (c :: rest) with
    | some (ct, remaining) => ct :: scanTrailersF marker fuel remaining
    | none => scanTrailersF marker fuel rest

/-- The compiled header pattern `^(fix|feat): (.*)$`. -/
def scHeaderMatch (line : String) : Option (List String) :=
  let cs := line.toList
  if isPrefixList "fix: ".toList cs then some ["fix", String.mk (cs.drop 5)]
  else if isPrefixList "feat: ".toList cs then some ["feat", String.mk (cs.drop 6)]
  else none

/-- The compiled note pattern `^(?i)\s*(BREAKING CHANGE)[:\s]+(.*)` applied
to one line (anchored, so at most one match). -/
def scNotesMatch (line : String) : List (String × String) :=
  let cs := line.toList
  let rest := cs.dropWhile wsChar
  if ciPrefixList "breaking change".toList rest then
    let kw := String.mk (rest.take 15)
    let after := rest.drop 15
    let seps := after.takeWhile fun c => c = ':' || wsChar c
    if seps.isEmpty then []
    else [(kw, String.mk (after.drop seps.length))]
  else []

/-- `reNotes.ReplaceAllString(input, "")` for the note pattern: without
multiline mode `^` anchors at the start of the whole body, so only a match
there is removed (`.*` stops at the first newline). -/
def scNotesStrip (s : String) : String :=
  let cs := s.toList
  let rest := cs.dropWhile wsChar
  if ciPrefixList "breaking change".toList rest then
    let after := rest.drop 15
    let seps := after.takeWhile fun c => c = ':' || wsChar c
    if seps.isEmpty then s
    else
      let tail := after.drop seps.length
      String.mk (tail.drop (tail.takeWhile fun c => c ≠ '\n').length)
  else s

/-- The concrete matcher set for the scenario configuration. -/
def scMatchers : Matchers where
  headerMatch := scHeaderMatch
  mergeMatch := fun _ => none
  revertMatch := fun _ => none
  refMatch := fun s => scanRefsF (s.toList.length + 1) s.toList
  issueMatch := fun s => scanIssuesF (s.toList.length + 1) s.toList
  notesMatch := scNotesMatch
  notesStrip := scNotesStrip
  mentionMatch := fun s => scanMentionsF (s.toList.length + 1) s.toList
  signOffMatch := fun s => scanTrailersF "Signed-off-by:".toList (s.toList.length + 1) s.toList
  coAuthorMatch := fun s => scanTrailersF "Co-authored-by:".toList (s.toList.length + 1) s.toList
  jiraDescMatch := fun _ => none

/-- The scenario options: header capture groups bind to Type and Subject. -/
def scOptions : Options := { headerPatternMaps := ["Type", "Subject"] }

/-- A Jira client whose lookups always fail. -/
def scJira : JiraClientM := ⟨fun _ => .error "jira unavailable"⟩

/-! ## Concrete records, clients and option sets for the scenario proofs -/

/-- A client whose `log` output is empty and whose `diff-tree` query answers
`"a.txt"` for short hash `"bbbb"`. -/
def chClient : Client :=
  ⟨.ok "", fun h => if h = "bbbb" then .ok "a.txt" else .error "bad hash"⟩

/-- A record whose subject holds an action reference `Fixes #42` and whose
body holds the same issue number as a bare reference `#42`. -/
def c4Record : String :=
  "HASH:aaaa\tbbbb" ++ delimiter ++ "AUTHOR:An\tae@x.io\t5" ++ delimiter ++
  "COMMITTER:Cn\tce@x.io\t6" ++ delimiter ++ "SUBJECT:Fixes #42" ++ delimiter ++ "BODY:#42"

/-- The scenario options with multiline-commit splitting enabled. -/
def mlOptions : Options :=
  { headerPatternMaps := ["Type", "Subject"], multilineCommit := true }

/-- A record whose body holds one line matching the header pattern. -/
def mlRecord : String :=
  "HASH:aaaa\tbbbb" ++ delimiter ++ "AUTHOR:An\tae@x.io\t5" ++ delimiter ++
  "COMMITTER:Cn\tce@x.io\t6" ++ delimiter ++ "SUBJECT:feat: top" ++ delimiter ++
  "BODY:fix: sub change"

/-- The scenario options with a post-processor that discards every commit. -/
def dropOptions : Options :=
  { headerPatternMaps := ["Type", "Subject"], processor := some fun _ => none }

/-- A client whose `log` output holds exactly one record
(the text before the first separator is discarded by `Parse`). -/
def oneRecordClient : Client :=
  ⟨.ok (separator ++ mlRecord), fun h => if h = "bbbb" then .ok "a.txt" else .error "bad hash"⟩

/-- The commit data of a successfully parsed commit. -/
def parsedData : Except PanicKind (Except String Commit) → Option CommitData
  | .ok (.ok (.mk d _)) => some d
  | _ => none

/-- The sub-commit data of a successfully parsed commit. -/
def parsedSubs : Except PanicKind (Except String Commit) → Option (List CommitData)
  | .ok (.ok (.mk _ subs)) => some (subs.map Commit.data)
  | _ => none

/-- The commit `c4Record` parses to: the header's action reference and the
body's bare reference to the same issue number both survive. -/
def c4Commit : Commit := .mk
  { hash := some ⟨"aaaa", "bbbb"⟩
    author := some ⟨"An", "ae@x.io", 5⟩
    committer := some ⟨"Cn", "ce@x.io", 6⟩
    header := "Fixes #42"
    body := "#42"
    refs := [⟨"Fixes", "", "42"⟩, ⟨"", "", "42"⟩]
    changedFiles := ["a.txt"] } []

/-- The extractor options of the custom-sort scenario: group by Type, sort
groups by the custom order list `["fix", "feat"]`. -/
def customSortOptions : Options :=
  { commitGroupBy := "Type", commitGroupSortBy := "Custom",
    commitGroupTitleOrder := ["fix", "feat"],
    commitGroupTitleMaps := [("fix", "Bug Fixes"), ("feat", "Features")],
    commitSortBy := "Scope" }

/-- A commit with group-by value `feat` (first). -/
def cFeat1 : Commit := .mk { header := "feat: a", fields := [("Type", "feat"), ("Subject", "a")] } []

/-- A commit with group-by value `feat` (second). -/
def cFeat2 : Commit := .mk { header := "feat: b", fields := [("Type", "feat"), ("Subject", "b")] } []

/-- A commit with group-by value `fix`. -/
def cFix : Commit := .mk { header := "fix: c", fields := [("Type", "fix"), ("Subject", "c")] } []

/-- Well-formedness of one `NAME:value` field token, as the spec's
edge-case policy assumes it: the token contains a colon, and the HASH /
AUTHOR / COMMITTER values carry the expected number of tab-separated
components. -/
def wfToken (token : String) : Bool :=
  match token.toList.findIdx? (fun c => c = ':') with
  | none => false
  | some i =>
    let field := String.mk (token.toList.take i)
    let value := trimString (String.mk (token.toList.drop (i + 1)))
    (field != "HASH" || decide (2 ≤ (splitStringChar '\t' value).length)) &&
    ((field != "AUTHOR" && field != "COMMITTER") ||
      decide (3 ≤ (splitStringChar '\t' value).length))

/-- Well-formedness of a whole record: every field token is well-formed. -/
def wfRecord (input : String) : Bool :=
  (splitOnStr delimiter input).all wfToken

/-- The short hash a record parses to (used to name the `diff-tree`
argument in the error-propagation theorem). -/
def recordShortHash (m : Matchers) (opts : Options) (jira : JiraClientM)
    (input : String) : Option String :=
  match buildCommitData m opts jira input with
  | .ok (c, _) => c.hash.map fun h => h.short
  | .error _ => none

/-- The invariant tying the `inNote` flag to a non-empty note list: when
it holds, the note-continuation indexing cannot go out of range. -/
def bodyInv (st : BodyState) : Prop :=
  st.inNote = true → st.notes ≠ []

/-! ## Theorems -/

/-- Once the Go `include` flag has been set by a passing pair, the rest of
the predicate loop computes the conjunction of the remaining pairs. -/
theorem includeGo_true_eq_all (c : CommitData) (n : Bool) :
    ∀ fs : List (String × List String), includeGo c n fs true = fs.all (pairSat c n)
  | [] => rfl
  | kv :: rest => by
    by_cases h : pairSat c n kv <;>
      simp [includeGo, h, includeGo_true_eq_all c n rest]

/-- The break-on-failure inclusion loop of `commitFilter` computes the
conjunction of all predicate pairs (trivially true when there are none). -/
theorem commitInclude_eq_all (c : Commit) (fs : List (String × List String))
    (n : Bool) : commitInclude c fs n = fs.all (pairSat c.data n) := by
  cases fs with
  | nil => rfl
  | cons kv rest =>
    by_cases h : pairSat c.data n kv <;>
      simp [commitInclude, includeGo, h, includeGo_true_eq_all]

/-- C3: `commitFilter` first expands every commit into itself followed by
its sub-commits (one level, in order); an expanded commit is kept iff every
`(path, allowedValues)` pair resolves on it to a string equal (after
optional case normalization of both sides) to at least one allowed value —
so an empty predicate map keeps everything, an unresolved path or
non-string value excludes the commit — and the result is a sublist of the
expanded sequence, hence preserves relative order. -/
theorem commitFilter_spec (commits : List Commit)
    (filters : List (String × List String)) (nocase : Bool) :
    commitFilter commits filters nocase
      = (commits.flatMap fun c => c :: c.subCommits).filter (fun c =>
          filters.all fun kv =>
            match c.data.dotGet kv.1 with
            | some (DynValue.str s) =>
              kv.2.any fun v => normCase nocase s == normCase nocase v
            | _ => false)
    ∧ commitFilter commits [] nocase = (commits.flatMap fun c => c :: c.subCommits)
    ∧ (commitFilter commits filters nocase).Sublist
        (commits.flatMap fun c => c :: c.subCommits) := by
  refine ⟨?_, ?_, List.filter_sublist _⟩
  · unfold commitFilter
    exact List.filter_congr fun c _ => commitInclude_eq_all c filters nocase
  · unfold commitFilter
    simp [commitInclude_eq_all]

/-- C6: on the body `"Fixes #42\nBREAKING CHANGE: old API removed\nmore
detail"` (issue prefix `#`, ref action `Fixes`, note keyword
`BREAKING CHANGE`), body processing yields exactly one Ref with value
`42`, exactly one Note titled `BREAKING CHANGE` whose body is
`"old API removed\nmore detail"`, and an empty trimmed body (neither the
reference line nor the note lines remain). -/
theorem processBody_scenario :
    processBody scMatchers scOptions scJira {}
        "Fixes #42\nBREAKING CHANGE: old API removed\nmore detail"
      = .ok ({ body := "Fixes #42\nBREAKING CHANGE: old API removed\nmore detail",
               trimmedBody := "",
               notes := [{ title := "BREAKING CHANGE", body := "old API removed\nmore detail" }],
               refs := [{ action := "Fixes", source := "", ref := "42" }] }, []) := by
  rfl

/-- The merge/revert bucket loop of `Extract` computes the two order-
preserving filters of the unexpanded input. -/
theorem extract_buckets_foldl (commits : List Commit) :
    ∀ accm accr : List Commit,
      commits.foldl
        (fun (p : List Commit × List Commit) c =>
          if c.data.merge.isSome then (p.1 ++ [c], p.2)
          else if c.data.revert.isSome then (p.1, p.2 ++ [c])
          else p)
        (accm, accr)
      = (accm ++ commits.filter fun c => c.data.merge.isSome,
         accr ++ commits.filter fun c => c.data.merge.isNone && c.data.revert.isSome) := by
  induction commits with
  | nil => simp
  | cons c rest ih =>
    intro accm accr
    cases hm : c.data.merge with
    | some v => simp [hm, ih]
    | none =>
      cases hr : c.data.revert with
      | some v => simp [hm, hr, ih]
      | none => simp [hm, hr, ih]

/-- C7: `Extract` buckets merge and revert commits from the unexpanded,
unfiltered input in one pass: the merge list collects every commit with a
non-empty Merge, the revert list every commit with an empty Merge and
non-empty Revert (a commit with both counts only as a merge), both in input
order; a commit appears there even if the filter would exclude it. -/
theorem extract_merge_revert_buckets (opts : Options) (commits : List Commit) :
    (Extract opts commits).2.1 = (commits.filter fun c => c.data.merge.isSome)
    ∧ (Extract opts commits).2.2.1
        = (commits.filter fun c => c.data.merge.isNone && c.data.revert.isSome)
    ∧ (∀ c ∈ commits, c.data.merge.isSome → c ∈ (Extract opts commits).2.1) := by
  have h := extract_buckets_foldl commits [] []
  have h1 : (Extract opts commits).2.1 = (commits.filter fun c => c.data.merge.isSome) := by
    simp [Extract, h]
  have h2 : (Extract opts commits).2.2.1
      = (commits.filter fun c => c.data.merge.isNone && c.data.revert.isSome) := by
    simp [Extract, h]
  refine ⟨h1, h2, ?_⟩
  intro c hc hm
  rw [h1]
  exact List.mem_filter.mpr ⟨hc, hm⟩

/-- Witness for C7: the bucket statement applied to a one-commit input
whose Merge is set. -/
theorem extract_merge_revert_buckets_witness :
    Commit.mk { merge := some [] } [] ∈ (Extract {} [Commit.mk { merge := some [] } []]).2.1 :=
  (extract_merge_revert_buckets {} [Commit.mk { merge := some [] } []]).2.2
    (Commit.mk { merge := some [] } []) (List.mem_singleton_self _) rfl

set_option maxRecDepth 8000 in
/-- C2 (code bug): `Parse` pre-sizes the result slice to the number of
records and fills it by index, so a record discarded by the post-processor
leaves a nil placeholder at its position: with one record and a processor
that returns nothing, `Parse` returns `[nil]` instead of the empty
sequence. -/
theorem parse_discarded_record_leaves_nil :
    Parse scMatchers dropOptions oneRecordClient scJira = .ok (.ok [none]) := by
  rfl

set_option maxRecDepth 8000 in
/-- C1 (code bug): sub-commits are created while the body token is being
processed, before `parseCommit` fetches the parent's changed files, so a
sub-commit inherits the parent's Hash (and Author/Committer) but ends up
with an empty ChangedFiles list while the parent's is `["a.txt"]`. -/
theorem subcommit_changed_files_not_inherited :
    (parsedData (parseCommit scMatchers mlOptions chClient scJira mlRecord)).map
        CommitData.changedFiles = some ["a.txt"]
    ∧ (parsedSubs (parseCommit scMatchers mlOptions chClient scJira mlRecord)).map
        (List.map CommitData.changedFiles) = some [[]]
    ∧ (parsedSubs (parseCommit scMatchers mlOptions chClient scJira mlRecord)).map
        (List.map CommitData.hash) = some [some ⟨"aaaa", "bbbb"⟩]
    ∧ (parsedSubs (parseCommit scMatchers mlOptions chClient scJira mlRecord)).map
        (List.map CommitData.header) = some ["fix: sub change"] := by
  refine ⟨rfl, rfl, rfl, rfl⟩

/-- Inserting an element permutes consing it. -/
theorem insertSorted_perm (less : α → α → Bool) (a : α) :
    ∀ l : List α, (insertSorted less a l).Perm (a :: l) := by
  intro l
  induction l with
  | nil => exact List.Perm.refl _
  | cons b bs ih =>
    simp only [insertSorted]
    split
    · exact (ih.cons b).trans (List.Perm.swap a b bs)
    · exact List.Perm.refl _

/-- The insertion sort permutes its input. -/
theorem sortByLess_perm (less : α → α → Bool) :
    ∀ l : List α, (sortByLess less l).Perm l := by
  intro l
  induction l with
  | nil => exact List.Perm.refl _
  | cons a as ih =>
    exact (insertSorted_perm less a (sortByLess less as)).trans (ih.cons a)

/-- Inserting into a list that ascends by a numeric key keeps it
ascending. -/
theorem insertSorted_pairwise_key (key : α → Nat) (a : α) :
    ∀ l : List α, (l.Pairwise fun x y => key x ≤ key y) →
      ((insertSorted (fun x y => decide (key x < key y)) a l).Pairwise
        fun x y => key x ≤ key y) := by
  intro l
  induction l with
  | nil =>
    intro _
    simp [insertSorted]
  | cons b bs ih =>
    intro hp
    rw [List.pairwise_cons] at hp
    obtain ⟨hb, hbs⟩ := hp
    simp only [insertSorted]
    split
    case isTrue h =>
      rw [List.pairwise_cons]
      refine ⟨?_, ih hbs⟩
      intro x hx
      rcases List.mem_cons.mp ((insertSorted_perm _ a bs).mem_iff.mp hx) with hxa | hxbs
      · cases hxa
        exact Nat.le_of_lt (of_decide_eq_true h)
      · exact hb x hxbs
    case isFalse h =>
      rw [List.pairwise_cons]
      have hab : key a ≤ key b := Nat.le_of_not_lt (of_decide_eq_false (Bool.eq_false_iff.mpr h) : ¬ key b < key a)
      refine ⟨?_, List.pairwise_cons.mpr ⟨hb, hbs⟩⟩
      intro x hx
      rcases List.mem_cons.mp hx with hxb | hxbs
      · exact hxb ▸ hab
      · exact Nat.le_trans hab (hb x hxbs)

/-- The insertion sort ascends by the numeric key it compares with. -/
theorem sortByLess_pairwise_key (key : α → Nat) :
    ∀ l : List α,
      ((sortByLess (fun x y => decide (key x < key y)) l).Pairwise
        fun x y => key x ≤ key y) := by
  intro l
  induction l with
  | nil => simp [sortByLess]
  | cons a as ih => exact insertSorted_pairwise_key key a _ ih

/-- A title absent from the custom order list is mapped to index 0
(the Go map's default value). -/
theorem orderIdx_not_mem_aux (t : String) :
    ∀ (ord : List String) (n : Nat) (acc : Option Nat), t ∉ ord →
      (ord.enumFrom n).foldl (fun acc p => if p.2 == t then some p.1 else acc) acc = acc := by
  intro ord
  induction ord with
  | nil => intro n acc _; rfl
  | cons s rest ih =>
    intro n acc hmem
    have hs : ¬(s == t) = true := by
      simp only [beq_iff_eq]
      intro h
      exact hmem (h ▸ List.mem_cons_self s rest)
    simp only [List.enumFrom, List.foldl, hs, if_neg hs]
    exact ih (n + 1) acc fun h => hmem (List.mem_cons_of_mem s h)

/-- C8: with sort mode `Custom` the commit groups come out ascending by the
index of their raw title in the configured title-order list (absent titles
compare as index 0); the scenario with two `feat` commits and one `fix`
commit under order list `["fix", "feat"]` yields groups `[fix, feat]`, with
the `feat` group holding both commits in input order. -/
theorem commit_groups_custom_sort :
    (∀ (opts : Options) (groups : List CommitGroup),
      opts.commitGroupSortBy = "Custom" →
      ((sortCommitGroups opts groups).Pairwise fun g h =>
        orderIdx opts.commitGroupTitleOrder g.rawTitle ≤
        orderIdx opts.commitGroupTitleOrder h.rawTitle))
    ∧ (∀ (ord : List String) (t : String), t ∉ ord → orderIdx ord t = 0)
    ∧ (Extract customSortOptions [cFeat1, cFeat2, cFix]).1.map
        (fun g => (g.rawTitle, g.title, g.commits.map Commit.data))
      = [("fix", "Bug Fixes", [cFix.data]), ("feat", "Features", [cFeat1.data, cFeat2.data])] := by
  refine ⟨?_, ?_, by rfl⟩
  · intro opts groups hc
    have hless : groupLess opts = fun g h =>
        decide (orderIdx opts.commitGroupTitleOrder g.rawTitle <
                orderIdx opts.commitGroupTitleOrder h.rawTitle) := by
      funext g h
      simp [groupLess, hc]
    unfold sortCommitGroups
    rw [List.pairwise_map, hless]
    exact sortByLess_pairwise_key (fun g => orderIdx opts.commitGroupTitleOrder g.rawTitle) groups
  · intro ord t hmem
    unfold orderIdx
    rw [List.enum, orderIdx_not_mem_aux t ord 0 none hmem]
    rfl

/-- Witness for C8: the sortedness statement applied to a concrete group
list of the custom-sort configuration, and the default index of an absent
title. -/
theorem commit_groups_custom_sort_witness :
    ((sortCommitGroups customSortOptions
        [{ rawTitle := "feat", title := "Features", commits := [] },
         { rawTitle := "fix", title := "Bug Fixes", commits := [] }]).Pairwise fun g h =>
      orderIdx customSortOptions.commitGroupTitleOrder g.rawTitle ≤
      orderIdx customSortOptions.commitGroupTitleOrder h.rawTitle)
    ∧ orderIdx ["fix", "feat"] "docs" = 0 :=
  ⟨commit_groups_custom_sort.1 customSortOptions _ rfl,
   commit_groups_custom_sort.2.1 ["fix", "feat"] "docs" (by decide)⟩

/-- The accumulate-if-absent loop produces a duplicate-free list, for any
equality test that characterizes equality. -/
theorem foldl_dedup_pairwise {α : Type} (eqb : α → α → Bool)
    (heq : ∀ a b : α, eqb a b = true ↔ a = b) :
    ∀ (l acc : List α), acc.Pairwise (· ≠ ·) →
      (l.foldl (fun arr x => if arr.any fun r => eqb x r then arr else arr ++ [x]) acc).Pairwise
        (· ≠ ·) := by
  intro l
  induction l with
  | nil => intro acc h; exact h
  | cons x xs ih =>
    intro acc h
    simp only [List.foldl]
    cases hany : acc.any fun r => eqb x r with
    | true => simpa [hany] using ih acc h
    | false =>
      have hnotx : ∀ a ∈ acc, a ≠ x := by
        intro a ha heqax
        have := List.any_eq_false.mp hany a ha
        exact this ((heq x a).mpr heqax.symm)
      have hpw : (acc ++ [x]).Pairwise (· ≠ ·) := by
        rw [List.pairwise_append]
        refine ⟨h, by simp, ?_⟩
        intro a ha b hb
        rw [List.mem_singleton.mp hb]
        exact hnotx a ha
      simpa [hany] using ih (acc ++ [x]) hpw

/-- `sameRef` decides equality of `Ref` values. -/
theorem sameRef_iff (a b : Ref) : sameRef a b = true ↔ a = b := by
  cases a
  cases b
  simp only [sameRef, Bool.and_eq_true, beq_iff_eq, Ref.mk.injEq]
  tauto

/-- `uniqRefs` leaves no two identical `(Action, Source, Ref)` triples. -/
theorem uniqRefs_pairwise (refs : List Ref) : (uniqRefs refs).Pairwise (· ≠ ·) :=
  foldl_dedup_pairwise sameRef sameRef_iff refs [] (by simp)

/-- `uniqMentions` leaves no duplicate mention strings. -/
theorem uniqMentions_pairwise (ms : List String) : (uniqMentions ms).Pairwise (· ≠ ·) :=
  foldl_dedup_pairwise (fun a b => a == b) (fun a b => beq_iff_eq) ms [] (by simp)

/-- The issue pass of `parseRefs` appends only bare refs whose issue number
differs from every ref already accumulated. -/
theorem parseRefs_issues_aux :
    ∀ (issues : List String) (acc : List Ref),
      ∃ bares : List Ref,
        issues.foldl
            (fun acc r1 => if acc.any fun r => r.ref == r1 then acc else acc ++ [Ref.mk "" "" r1])
            acc
          = acc ++ bares
        ∧ ∀ b ∈ bares, b.action = "" ∧ b.source = "" ∧ ∀ a ∈ acc, a.ref ≠ b.ref := by
  intro issues
  induction issues with
  | nil => intro acc; exact ⟨[], by simp, by simp⟩
  | cons i is ih =>
    intro acc
    simp only [List.foldl]
    cases hany : acc.any fun r => r.ref == i with
    | true =>
      obtain ⟨bares, heqn, hc⟩ := ih acc
      refine ⟨bares, ?_, hc⟩
      simpa [hany] using heqn
    | false =>
      obtain ⟨bares, heqn, hc⟩ := ih (acc ++ [Ref.mk "" "" i])
      refine ⟨Ref.mk "" "" i :: bares, ?_, ?_⟩
      · simpa [hany, List.append_assoc] using heqn
      · intro b hb
        rcases List.mem_cons.mp hb with hb1 | hbmem
        · subst hb1
          refine ⟨rfl, rfl, ?_⟩
          intro a ha heqref
          exact (List.any_eq_false.mp hany a ha) (beq_iff_eq.mpr heqref)
        · obtain ⟨h1, h2, h3⟩ := hc b hbmem
          exact ⟨h1, h2, fun a ha => h3 a (List.mem_append_left _ ha)⟩

/-- C4 (amended): every commit `parseCommit` returns has pairwise-distinct
`(Action, Source, Ref)` triples in Refs and no duplicate Mentions; and
within one `parseRefs` invocation (one header string or one body line)
every bare issue entry differs in Ref value from every action entry of the
same invocation.  (Across different lines a bare entry may duplicate an
action entry's Ref value — see the counterexample.) -/
theorem parser_refs_mentions_dedup :
    (∀ (m : Matchers) (opts : Options) (cl : Client) (jira : JiraClientM)
       (input : String) (c : Commit),
      parseCommit m opts cl jira input = .ok (.ok c) →
      c.data.refs.Pairwise (· ≠ ·) ∧ c.data.mentions.Pairwise (· ≠ ·))
    ∧ (∀ (m : Matchers) (s : String),
        ∃ bares : List Ref,
          parseRefs m s = ((m.refMatch s).map fun t => Ref.mk t.1 t.2.1 t.2.2) ++ bares
          ∧ ∀ b ∈ bares, b.action = "" ∧ b.source = "" ∧
              ∀ a ∈ (m.refMatch s).map fun t => Ref.mk t.1 t.2.1 t.2.2, a.ref ≠ b.ref) := by
  constructor
  · intro m opts cl jira input c h
    unfold parseCommit at h
    split at h
    · exact absurd h (by simp)
    case h_2 c0 subs heq =>
      unfold finishCommit at h
      split at h
      · exact absurd h (by simp)
      case h_2 hsh =>
        split at h
        · exact absurd h (by simp)
        case h_2 out hout =>
          simp only [Except.ok.injEq] at h
          subst h
          constructor
          · show (Commit.mk _ _).data.refs.Pairwise _
            simp only [Commit.data]
            split <;> exact uniqRefs_pairwise _
          · show (Commit.mk _ _).data.mentions.Pairwise _
            simp only [Commit.data]
            split <;> exact uniqMentions_pairwise _
  · intro m s
    exact parseRefs_issues_aux (m.issueMatch s) _

set_option maxRecDepth 8000 in
/-- Witness for C4: the deduplication statement applied to the concrete
commit parsed from `c4Record`. -/
theorem parser_refs_mentions_dedup_witness :
    parseCommit scMatchers scOptions chClient scJira c4Record = .ok (.ok c4Commit)
    ∧ c4Commit.data.refs.Pairwise (· ≠ ·) ∧ c4Commit.data.mentions.Pairwise (· ≠ ·) :=
  ⟨by rfl,
   parser_refs_mentions_dedup.1 scMatchers scOptions chClient scJira c4Record c4Commit (by rfl)⟩

set_option maxRecDepth 8000 in
/-- Counterexample for C4 as stated: the commit parsed from a record whose
header reads `Fixes #42` and whose body reads `#42` keeps both the action
entry and a bare entry with the same Ref value `42` — the bare-vs-action
deduplication does not apply across lines. -/
theorem parser_bare_ref_cross_line_dup :
    parseCommit scMatchers scOptions chClient scJira c4Record = .ok (.ok c4Commit)
    ∧ c4Commit.data.refs = [⟨"Fixes", "", "42"⟩, ⟨"", "", "42"⟩]
    ∧ ((c4Commit.data.refs.get? 1).map Ref.action = some ""
       ∧ (c4Commit.data.refs.get? 1).map Ref.source = some ""
       ∧ (c4Commit.data.refs.get? 1).map Ref.ref = (c4Commit.data.refs.get? 0).map Ref.ref) := by
  refine ⟨by rfl, rfl, rfl, rfl, rfl⟩

/-- The loop-start trim reset changes no field but `trim`. -/
theorem resetTrim_skeleton (st : BodyState) :
    (resetTrim st).notes = st.notes ∧ (resetTrim st).refs = st.refs
    ∧ (resetTrim st).mentions = st.mentions ∧ (resetTrim st).coAuthors = st.coAuthors
    ∧ (resetTrim st).signers = st.signers ∧ (resetTrim st).trimmed = st.trimmed
    ∧ (resetTrim st).inNote = st.inNote ∧ (resetTrim st).fence = st.fence := by
  unfold resetTrim
  split <;> exact ⟨rfl, rfl, rfl, rfl, rfl, rfl, rfl, rfl⟩

/-- The fence update changes no field but `fence`. -/
theorem applyFence_skeleton (st : BodyState) (line : String) :
    (applyFence st line).notes = st.notes ∧ (applyFence st line).refs = st.refs
    ∧ (applyFence st line).mentions = st.mentions
    ∧ (applyFence st line).coAuthors = st.coAuthors
    ∧ (applyFence st line).signers = st.signers
    ∧ (applyFence st line).trimmed = st.trimmed
    ∧ (applyFence st line).inNote = st.inNote
    ∧ (applyFence st line).trim = st.trim :=
  ⟨rfl, rfl, rfl, rfl, rfl, rfl, rfl, rfl⟩

/-- Inside a code block the metadata step is the identity (the Go
short-circuit keeps `extractLineMetadata` from running at all). -/
theorem applyMetadata_fence_some (m : Matchers) (st : BodyState) (line : String)
    (f : Fin 4) (h : st.fence = some f) : applyMetadata m st line = st := by
  unfold applyMetadata
  rw [h]
  rfl

/-- The metadata step never touches the note list, the trimmed lines or
the fence. -/
theorem applyMetadata_skeleton (m : Matchers) (st : BodyState) (line : String) :
    (applyMetadata m st line).notes = st.notes
    ∧ (applyMetadata m st line).trimmed = st.trimmed
    ∧ (applyMetadata m st line).fence = st.fence
    ∧ ((applyMetadata m st line).inNote = st.inNote
       ∨ (applyMetadata m st line).inNote = false) := by
  unfold applyMetadata
  by_cases hf : st.fence.isNone
  · rw [if_pos hf]
    by_cases hm : (extractLineMetadata m st line).1 = true
    · rw [if_pos hm]
      exact ⟨rfl, rfl, rfl, Or.inr rfl⟩
    · rw [if_neg hm]
      exact ⟨rfl, rfl, rfl, Or.inl rfl⟩
  · rw [if_neg hf]
    exact ⟨rfl, rfl, rfl, Or.inl rfl⟩

/-- A successful note step changes no field but the notes, the `inNote` /
`trim` flags. -/
theorem applyNotes_ok_skeleton (m : Matchers) (st : BodyState) (line : String)
    (st' : BodyState) (h : applyNotes m st line = .ok st') :
    st'.refs = st.refs ∧ st'.mentions = st.mentions ∧ st'.coAuthors = st.coAuthors
    ∧ st'.signers = st.signers ∧ st'.fence = st.fence ∧ st'.trimmed = st.trimmed := by
  unfold applyNotes at h
  split at h
  · cases h
    exact ⟨rfl, rfl, rfl, rfl, rfl, rfl⟩
  · split at h
    · split at h
      · exact absurd h (by simp)
      · cases h
        exact ⟨rfl, rfl, rfl, rfl, rfl, rfl⟩
    · cases h
      exact ⟨rfl, rfl, rfl, rfl, rfl, rfl⟩

/-- The collection step only appends to the trimmed lines and changes
nothing else. -/
theorem emitTrimmed_skeleton (st : BodyState) (line : String) :
    (emitTrimmed st line).refs = st.refs ∧ (emitTrimmed st line).mentions = st.mentions
    ∧ (emitTrimmed st line).coAuthors = st.coAuthors
    ∧ (emitTrimmed st line).signers = st.signers
    ∧ (emitTrimmed st line).fence = st.fence
    ∧ (emitTrimmed st line).notes = st.notes
    ∧ (emitTrimmed st line).inNote = st.inNote
    ∧ ((emitTrimmed st line).trimmed = st.trimmed
       ∨ (emitTrimmed st line).trimmed = st.trimmed ++ [line]) := by
  unfold emitTrimmed
  split
  · exact ⟨rfl, rfl, rfl, rfl, rfl, rfl, rfl, Or.inr rfl⟩
  · exact ⟨rfl, rfl, rfl, rfl, rfl, rfl, rfl, Or.inl rfl⟩

/-- Each body-loop iteration only ever appends to the collected trimmed
lines. -/
theorem bodyStep_trimmed_mono (m : Matchers) (st : BodyState) (line : String)
    (st' : BodyState) (h : bodyStep m st line = .ok st') :
    ∃ t, st'.trimmed = st.trimmed ++ t := by
  unfold bodyStep at h
  cases han : applyNotes m (applyMetadata m (applyFence (resetTrim st) line) line) line with
  | error p =>
    rw [han] at h
    exact Except.noConfusion h
  | ok stn =>
    rw [han] at h
    have h' : Except.ok (emitTrimmed stn line) = Except.ok st' := h
    injection h' with h'
    subst h'
    have h0 := (resetTrim_skeleton st).2.2.2.2.2.1
    have h1 := (applyFence_skeleton (resetTrim st) line).2.2.2.2.2.1
    have h2 := (applyMetadata_skeleton m (applyFence (resetTrim st) line) line).2.1
    have h3 := (applyNotes_ok_skeleton m _ line stn han).2.2.2.2.2
    have hch : stn.trimmed = st.trimmed := by rw [h3, h2, h1, h0]
    rcases (emitTrimmed_skeleton stn line).2.2.2.2.2.2.2 with he | he
    · exact ⟨[], by rw [he, hch, List.append_nil]⟩
    · exact ⟨[line], by rw [he, hch]⟩

/-- The body loop only ever appends to the collected trimmed lines. -/
theorem bodyLoop_trimmed_mono (m : Matchers) :
    ∀ (lines : List String) (st st' : BodyState),
      bodyLoop m st lines = .ok st' → ∃ t, st'.trimmed = st.trimmed ++ t := by
  intro lines
  induction lines with
  | nil =>
    intro st st' h
    cases h
    exact ⟨[], by simp⟩
  | cons line rest ih =>
    intro st st' h
    unfold bodyLoop at h
    cases hstep : bodyStep m st line with
    | error p =>
      rw [hstep] at h
      exact Except.noConfusion h
    | ok st1 =>
      rw [hstep] at h
      obtain ⟨t1, ht1⟩ := bodyStep_trimmed_mono m st line st1 hstep
      obtain ⟨t2, ht2⟩ := ih st1 st' h
      exact ⟨t1 ++ t2, by rw [ht2, ht1, List.append_assoc]⟩

/-- C5 (amended): while a triple-backtick fence is open and the line does
not close it, the body loop extracts no Ref, Mention, co-author or sign-off
from the line; provided additionally no note is open and the line does not
match the note pattern (note matching and open-note continuation are not
fence-guarded), the line is kept for the trimmed body; a fence opened by
one marker type is closed only by a later line beginning with that same
marker; and collected trimmed lines are never removed later. -/
theorem fence_suppresses_metadata :
    (∀ (m : Matchers) (st : BodyState) (line : String),
      st.fence = some 0 →
      isPrefixList "```".toList line.toList = false →
      ((∀ st', bodyStep m st line = .ok st' →
          st'.refs = st.refs ∧ st'.mentions = st.mentions ∧
          st'.coAuthors = st.coAuthors ∧ st'.signers = st.signers ∧ st'.fence = some 0)
       ∧ (st.inNote = false → m.notesMatch line = [] →
          ∃ st', bodyStep m st line = .ok st'
            ∧ st'.trimmed = st.trimmed ++ [line])))
    ∧ (∀ (f : Fin 4) (l : String), fenceUpdate (some f) l = none →
        isPrefixList (fenceTypes.get f).toList l.toList = true)
    ∧ (∀ (m : Matchers) (lines : List String) (st st' : BodyState),
        bodyLoop m st lines = .ok st' → ∃ t, st'.trimmed = st.trimmed ++ t) := by
  refine ⟨?_, ?_, fun m => bodyLoop_trimmed_mono m⟩
  · intro m st line hf hpre
    have hfu : fenceUpdate st.fence line = some 0 := by
      rw [hf]
      show (if isPrefixList (fenceTypes.get (0 : Fin 4)).toList line.toList = true
            then none else some (0 : Fin 4)) = some 0
      rw [show ((fenceTypes.get (0 : Fin 4)) : String) = "```" from rfl, hpre]
      rfl
    have hfence2 : (applyFence (resetTrim st) line).fence = some 0 := by
      show fenceUpdate (resetTrim st).fence line = some 0
      rw [(resetTrim_skeleton st).2.2.2.2.2.2.2, hfu]
    have hmeta : applyMetadata m (applyFence (resetTrim st) line) line
        = applyFence (resetTrim st) line :=
      applyMetadata_fence_some m _ line 0 hfence2
    constructor
    · intro st' h
      unfold bodyStep at h
      rw [hmeta] at h
      cases han : applyNotes m (applyFence (resetTrim st) line) line with
      | error p =>
        rw [han] at h
        exact Except.noConfusion h
      | ok stn =>
        rw [han] at h
        have h' : Except.ok (emitTrimmed stn line) = Except.ok st' := h
        injection h' with h'
        subst h'
        have hr := resetTrim_skeleton st
        have hfk := applyFence_skeleton (resetTrim st) line
        have hnk := applyNotes_ok_skeleton m _ line stn han
        have hek := emitTrimmed_skeleton stn line
        refine ⟨?_, ?_, ?_, ?_, ?_⟩
        · rw [hek.1, hnk.1, hfk.2.1, hr.2.1]
        · rw [hek.2.1, hnk.2.1, hfk.2.2.1, hr.2.2.1]
        · rw [hek.2.2.1, hnk.2.2.1, hfk.2.2.2.1, hr.2.2.2.1]
        · rw [hek.2.2.2.1, hnk.2.2.2.1, hfk.2.2.2.2.1, hr.2.2.2.2.1]
        · rw [hek.2.2.2.2.1, hnk.2.2.2.2.1, hfence2]
    · intro hnf hnm
      have h1 : resetTrim st = { st with trim := false } := by
        unfold resetTrim
        rw [hnf]
        rfl
      have h2 : applyFence { st with trim := false } line
          = { st with trim := false, fence := some 0 } := by
        unfold applyFence
        show ({ st with trim := false, fence := fenceUpdate st.fence line } : BodyState) = _
        rw [hfu]
      have h4 : applyNotes m ({ st with trim := false, fence := some 0 } : BodyState) line
          = .ok { st with trim := false, fence := some 0 } := by
        unfold applyNotes
        rw [hnm]
        show (if st.inNote = true then _ else _) = _
        rw [hnf]
        simp
      refine ⟨{ st with trim := false, fence := some 0, trimmed := st.trimmed ++ [line] }, ?_, rfl⟩
      unfold bodyStep
      rw [h1, h2, applyMetadata_fence_some m _ line 0 rfl, h4]
      rfl
  · intro f l h
    by_cases hp : isPrefixList (fenceTypes.get f).toList l.toList
    · exact hp
    · have h' : (if isPrefixList (fenceTypes.get f).toList l.toList = true
          then none else some f) = (none : Option (Fin 4)) := h
      rw [if_neg hp] at h'
      exact Option.noConfusion h'
set_option maxRecDepth 8000 in
/-- Counterexample for C5 as stated: in the body
`"BREAKING CHANGE: x\n```\n#42"` the line `#42` sits inside an open
triple-backtick fence and is indeed not extracted as a Ref, but because a
note is open it is appended to the note body and dropped from the trimmed
body (which ends up empty) instead of remaining there. -/
theorem fence_line_swallowed_by_note :
    processBody scMatchers scOptions scJira {} "BREAKING CHANGE: x\n```\n#42"
      = .ok ({ body := "BREAKING CHANGE: x\n```\n#42",
               trimmedBody := "",
               notes := [{ title := "BREAKING CHANGE", body := "x\n```\n#42" }] }, []) := by
  rfl

/-- Witness for C5: after processing the opening line <code>```</code> the
fence is open; on the line `Fixes #42` (which holds a reference-like token)
the statement applies: nothing is extracted and the line stays in the
trimmed lines. -/
theorem fence_suppresses_metadata_witness :
    ∃ st', bodyStep scMatchers { trimmed := ["```"], fence := some 0 } "Fixes #42" = .ok st'
      ∧ st'.trimmed = ["```", "Fixes #42"] ∧ st'.refs = [] := by
  obtain ⟨h1, h2⟩ :=
    (fence_suppresses_metadata.1 scMatchers { trimmed := ["```"], fence := some 0 } "Fixes #42"
      rfl (by decide))
  obtain ⟨st', hok, htr⟩ := h2 rfl (by rfl)
  obtain ⟨hrefs, -, -, -, -⟩ := h1 st' hok
  exact ⟨st', hok, htr, hrefs⟩

/-- Appending a continuation line to a non-empty note list succeeds and
keeps the list non-empty. -/
theorem appendToLastNote_isSome (line : String) :
    ∀ ns : List Note, ns ≠ [] → ∃ r, appendToLastNote ns line = some r ∧ r ≠ [] := by
  intro ns
  induction ns with
  | nil => intro h; exact absurd rfl h
  | cons n rest ih =>
    intro _
    cases rest with
    | nil => exact ⟨_, rfl, by simp⟩
    | cons n2 r2 =>
      obtain ⟨r, hr, hne⟩ := ih (by simp)
      refine ⟨n :: r, ?_, by simp⟩
      show (appendToLastNote (n2 :: r2) line).map (n :: ·) = some (n :: r)
      rw [hr]
      rfl

/-- Under the invariant the note step succeeds and preserves the
invariant. -/
theorem applyNotes_ok_of_inv (m : Matchers) (st : BodyState) (line : String)
    (hinv : bodyInv st) :
    ∃ st', applyNotes m st line = .ok st' ∧ bodyInv st' := by
  unfold applyNotes
  cases hres : m.notesMatch line with
  | cons r rest =>
    refine ⟨_, rfl, ?_⟩
    intro _
    simp
  | nil =>
    by_cases hn : st.inNote
    · rw [if_pos hn]
      obtain ⟨r, hr, hne⟩ := appendToLastNote_isSome line st.notes (hinv hn)
      rw [hr]
      exact ⟨_, rfl, fun _ => hne⟩
    · rw [if_neg hn]
      exact ⟨st, rfl, hinv⟩

/-- Each body-loop iteration succeeds under the invariant and preserves
it. -/
theorem bodyStep_ok_of_inv (m : Matchers) (st : BodyState) (line : String)
    (hinv : bodyInv st) :
    ∃ st', bodyStep m st line = .ok st' ∧ bodyInv st' := by
  have hr := resetTrim_skeleton st
  have hf := applyFence_skeleton (resetTrim st) line
  have hm := applyMetadata_skeleton m (applyFence (resetTrim st) line) line
  have hinv2 : bodyInv (applyMetadata m (applyFence (resetTrim st) line) line) := by
    intro hnote
    rw [hm.1, hf.1, hr.1]
    rcases hm.2.2.2 with hi | hi
    · rw [hi, hf.2.2.2.2.2.2.1, hr.2.2.2.2.2.2.1] at hnote
      exact hinv hnote
    · rw [hi] at hnote
      exact absurd hnote (by simp)
  obtain ⟨stn, hok, hinvn⟩ := applyNotes_ok_of_inv m _ line hinv2
  refine ⟨emitTrimmed stn line, ?_, ?_⟩
  · unfold bodyStep
    rw [hok]
    rfl
  · intro hnote
    have he := emitTrimmed_skeleton stn line
    rw [he.2.2.2.2.2.1]
    rw [he.2.2.2.2.2.2.1] at hnote
    exact hinvn hnote

/-- The whole body loop succeeds under the invariant. -/
theorem bodyLoop_ok_of_inv (m : Matchers) :
    ∀ (lines : List String) (st : BodyState), bodyInv st →
      ∃ st', bodyLoop m st lines = .ok st' := by
  intro lines
  induction lines with
  | nil => intro st _; exact ⟨st, rfl⟩
  | cons line rest ih =>
    intro st hinv
    obtain ⟨st1, hok, hinv1⟩ := bodyStep_ok_of_inv m st line hinv
    obtain ⟨st', hok'⟩ := ih st1 hinv1
    refine ⟨st', ?_⟩
    unfold bodyLoop
    rw [hok]
    exact hok'

/-- `processBody` always succeeds: its loop starts with `inNote` off. -/
theorem processBody_ok (m : Matchers) (opts : Options) (jira : JiraClientM)
    (c : CommitData) (input : String) :
    ∃ p, processBody m opts jira c input = .ok p := by
  obtain ⟨st, hst⟩ := bodyLoop_ok_of_inv m
    (splitStringChar '\n' (convNewline input))
    (initialBodyState { c with body := convNewline input })
    (by intro h; exact absurd h (by simp [initialBodyState]))
  unfold processBody
  rw [hst]
  exact ⟨_, rfl⟩

/-- Under the tab-component conditions one `switch field` step succeeds. -/
theorem stepField_ok (m : Matchers) (opts : Options) (jira : JiraClientM)
    (st : CommitData × List CommitData) (field value : String)
    (hH : field = "HASH" → 2 ≤ (splitStringChar '\t' value).length)
    (hAC : field = "AUTHOR" ∨ field = "COMMITTER" →
      3 ≤ (splitStringChar '\t' value).length) :
    ∃ st', stepField m opts jira st field value = .ok st' := by
  unfold stepField
  by_cases h1 : field = "HASH"
  · rw [if_pos h1]
    have hlen := hH h1
    cases hsp : splitStringChar '\t' value with
    | nil => rw [hsp] at hlen; exact absurd hlen (by simp)
    | cons a rest =>
      cases rest with
      | nil => rw [hsp] at hlen; exact absurd hlen (by simp)
      | cons b r2 =>
        have hph : parseHash value = .ok { long := a, short := b } := by
          unfold parseHash
          rw [hsp]
        rw [hph]
        exact ⟨_, rfl⟩
  · rw [if_neg h1]
    by_cases h2 : field = "AUTHOR"
    · rw [if_pos h2]
      have hlen := hAC (Or.inl h2)
      cases hsp : splitStringChar '\t' value with
      | nil => rw [hsp] at hlen; exact absurd hlen (by simp)
      | cons a rest =>
        cases rest with
        | nil => rw [hsp] at hlen; exact absurd hlen (by simp)
        | cons b r2 =>
          cases r2 with
          | nil => rw [hsp] at hlen; exact absurd hlen (by simp)
          | cons d r3 =>
            have hpa : parseAuthor value
                = .ok { name := a, email := b, date := (atoiGo d).getD 0 } := by
              unfold parseAuthor
              rw [hsp]
            rw [hpa]
            exact ⟨_, rfl⟩
    · rw [if_neg h2]
      by_cases h3 : field = "COMMITTER"
      · rw [if_pos h3]
        have hlen := hAC (Or.inr h3)
        cases hsp : splitStringChar '\t' value with
        | nil => rw [hsp] at hlen; exact absurd hlen (by simp)
        | cons a rest =>
          cases rest with
          | nil => rw [hsp] at hlen; exact absurd hlen (by simp)
          | cons b r2 =>
            cases r2 with
            | nil => rw [hsp] at hlen; exact absurd hlen (by simp)
            | cons d r3 =>
              have hpa : parseAuthor value
                  = .ok { name := a, email := b, date := (atoiGo d).getD 0 } := by
                unfold parseAuthor
                rw [hsp]
              rw [hpa]
              exact ⟨_, rfl⟩
      · rw [if_neg h3]
        by_cases h4 : field = "SUBJECT"
        · rw [if_pos h4]
          exact ⟨_, rfl⟩
        · rw [if_neg h4]
          by_cases h5 : field = "BODY"
          · rw [if_pos h5]
            obtain ⟨p, hp⟩ := processBody_ok m opts jira st.1 value
            rw [hp]
            exact ⟨_, rfl⟩
          · rw [if_neg h5]
            exact ⟨st, rfl⟩

/-- Under token well-formedness one field-token step succeeds. -/
theorem stepToken_ok (m : Matchers) (opts : Options) (jira : JiraClientM)
    (st : CommitData × List CommitData) (token : String)
    (hwf : wfToken token = true) :
    ∃ st', stepToken m opts jira st token = .ok st' := by
  cases hidx : token.toList.findIdx? (fun c => c = ':') with
  | none =>
    unfold wfToken at hwf
    rw [hidx] at hwf
    exact absurd hwf (by simp)
  | some i =>
    unfold wfToken at hwf
    rw [hidx] at hwf
    have hwf' :
        ((String.mk (token.toList.take i) != "HASH"
          || decide (2 ≤ (splitStringChar '\t'
              (trimString (String.mk (token.toList.drop (i + 1))))).length))
         && ((String.mk (token.toList.take i) != "AUTHOR"
              && String.mk (token.toList.take i) != "COMMITTER")
          || decide (3 ≤ (splitStringChar '\t'
              (trimString (String.mk (token.toList.drop (i + 1))))).length))) = true := hwf
    rw [Bool.and_eq_true, Bool.or_eq_true, Bool.or_eq_true] at hwf'
    obtain ⟨hH, hAC⟩ := hwf'
    unfold stepToken
    rw [hidx]
    apply stepField_ok
    · intro hfield
      rcases hH with hH | hH
      · rw [hfield] at hH
        exact absurd hH (by simp)
      · exact of_decide_eq_true hH
    · intro hfield
      rcases hAC with hAC | hAC
      · rw [Bool.and_eq_true] at hAC
        rcases hfield with hfield | hfield
        · rw [hfield] at hAC
          exact absurd hAC.1 (by simp)
        · rw [hfield] at hAC
          exact absurd hAC.2 (by simp)
      · exact of_decide_eq_true hAC

/-- Under record well-formedness the whole field-token loop succeeds. -/
theorem buildTokens_ok (m : Matchers) (opts : Options) (jira : JiraClientM) :
    ∀ (tokens : List String) (st : CommitData × List CommitData),
      (∀ t ∈ tokens, wfToken t = true) →
      ∃ st', tokens.foldlM (stepToken m opts jira) st = .ok st' := by
  intro tokens
  induction tokens with
  | nil => intro st _; exact ⟨st, rfl⟩
  | cons t ts ih =>
    intro st hwf
    obtain ⟨st1, h1⟩ := stepToken_ok m opts jira st t (hwf t (List.mem_cons_self t ts))
    obtain ⟨st', h'⟩ := ih st1 fun u hu => hwf u (List.mem_cons_of_mem t hu)
    refine ⟨st', ?_⟩
    rw [List.foldlM_cons, h1]
    exact h'

/-- The dedup / changed-files tail can only panic on the nil hash
dereference, never on slicing or indexing. -/
theorem finishCommit_no_oob (cl : Client) (c0 : CommitData) (subs : List CommitData) :
    finishCommit cl c0 subs ≠ .error .sliceOutOfRange
    ∧ finishCommit cl c0 subs ≠ .error .indexOutOfRange := by
  constructor <;>
    (intro hcon
     unfold finishCommit at hcon
     split at hcon
     · exact PanicKind.noConfusion (Except.error.inj hcon)
     · split at hcon
       · exact Except.noConfusion hcon
       · exact Except.noConfusion hcon)

/-- C10: under the well-formedness precondition — every field token has a
colon and the HASH / AUTHOR / COMMITTER values carry the expected number of
tab-separated components — no string-slicing or array-indexing step of
`parseCommit` goes out of bounds (the only possible panic left is the nil
hash dereference); and a malformed token without a colon (making the colon
index -1) does reach the out-of-range slice, since nothing validates the
input. -/
theorem parseCommit_wellformed_no_oob :
    (∀ (m : Matchers) (opts : Options) (cl : Client) (jira : JiraClientM) (input : String),
      wfRecord input = true →
      parseCommit m opts cl jira input ≠ .error .sliceOutOfRange
      ∧ parseCommit m opts cl jira input ≠ .error .indexOutOfRange)
    ∧ parseCommit scMatchers scOptions chClient scJira "nocolon"
        = .error .sliceOutOfRange := by
  constructor
  · intro m opts cl jira input hwf
    unfold wfRecord at hwf
    rw [List.all_eq_true] at hwf
    obtain ⟨st', hbuild⟩ := buildTokens_ok m opts jira (splitOnStr delimiter input)
      ({}, []) fun t ht => hwf t ht
    have hbuild' : buildCommitData m opts jira input = .ok st' := hbuild
    rcases st' with ⟨c0, subs⟩
    have hfin := finishCommit_no_oob cl c0 subs
    constructor
    · intro hcon
      unfold parseCommit at hcon
      rw [hbuild'] at hcon
      exact hfin.1 hcon
    · intro hcon
      unfold parseCommit at hcon
      rw [hbuild'] at hcon
      exact hfin.2 hcon
  · rfl

set_option maxRecDepth 8000 in
/-- Witness for C10: the no-out-of-bounds statement applied to the concrete
well-formed record `c4Record`. -/
theorem parseCommit_wellformed_no_oob_witness :
    wfRecord c4Record = true
    ∧ parseCommit scMatchers scOptions chClient scJira c4Record ≠ .error .sliceOutOfRange
    ∧ parseCommit scMatchers scOptions chClient scJira c4Record ≠ .error .indexOutOfRange :=
  ⟨by decide,
   parseCommit_wellformed_no_oob.1 scMatchers scOptions chClient scJira c4Record (by decide)⟩

/-- An error outcome of the record loop comes from some record's
`parseCommit` error. -/
theorem parseLines_error (m : Matchers) (opts : Options) (cl : Client)
    (jira : JiraClientM) (e : String) :
    ∀ lines : List String,
      parseLines m opts cl jira lines = .ok (.error e) →
      ∃ rec ∈ lines, parseCommit m opts cl jira rec = .ok (.error e) := by
  intro lines
  induction lines with
  | nil =>
    intro h
    exact absurd h (by simp [parseLines])
  | cons line rest ih =>
    intro h
    unfold parseLines at h
    split at h
    · exact Except.noConfusion h
    case h_2 e' heq =>
      simp only [Except.ok.injEq, Except.error.injEq] at h
      subst h
      exact ⟨line, List.mem_cons_self line rest, heq⟩
    case h_3 commit heq =>
      split at h
      · exact Except.noConfusion h
      case h_2 e' heq2 =>
        simp only [Except.ok.injEq, Except.error.injEq] at h
        subst h
        obtain ⟨rec, hmem, hrec⟩ := ih heq2
        exact ⟨rec, List.mem_cons_of_mem line hmem, hrec⟩
      case h_3 entries heq2 =>
        simp only [Except.ok.injEq] at h
        exact absurd h (by simp)

/-- A `parseCommit` error is a changed-files (diff) error for the record's
own short hash, propagated unchanged. -/
theorem parseCommit_error_diff (m : Matchers) (opts : Options) (cl : Client)
    (jira : JiraClientM) (rec e : String)
    (h : parseCommit m opts cl jira rec = .ok (.error e)) :
    ∃ hs, recordShortHash m opts jira rec = some hs ∧ cl.diffTree hs = .error e := by
  unfold parseCommit at h
  split at h
  · exact Except.noConfusion h
  case h_2 c0 subs heq =>
    unfold finishCommit at h
    split at h
    · exact Except.noConfusion h
    case h_2 hv hsh =>
      split at h
      case h_1 e' hd =>
        simp only [Except.ok.injEq, Except.error.injEq] at h
        subst h
        refine ⟨hv.short, ?_, hd⟩
        unfold recordShortHash
        rw [heq]
        show c0.hash.map (fun h => h.short) = some hv.short
        rw [hsh]
        rfl
      case h_2 out hd =>
        exact absurd h (by simp)

/-- When every record parses without error, the record loop succeeds. -/
theorem parseLines_ok (m : Matchers) (opts : Options) (cl : Client)
    (jira : JiraClientM) :
    ∀ lines : List String,
      (∀ rec ∈ lines, ∃ c, parseCommit m opts cl jira rec = .ok (.ok c)) →
      ∃ res, parseLines m opts cl jira lines = .ok (.ok res) := by
  intro lines
  induction lines with
  | nil => intro _; exact ⟨[], rfl⟩
  | cons line rest ih =>
    intro hall
    obtain ⟨c, hc⟩ := hall line (List.mem_cons_self line rest)
    obtain ⟨res, hres⟩ := ih fun rec hm => hall rec (List.mem_cons_of_mem line hm)
    refine ⟨applyProcessor opts c :: res, ?_⟩
    unfold parseLines
    rw [hc, hres]

/-- C9: `Parse` fails exactly on a failed VCS log invocation or a failed
per-record changed-files query, with the error propagated unchanged; when
the log call succeeds and every record parses without error, `Parse`
succeeds — for any issue-tracker client, since a failed issue lookup
leaves the commit unenriched and parsing continues. -/
theorem parse_error_propagation :
    (∀ (m : Matchers) (opts : Options) (cl : Client) (jira : JiraClientM) (e : String),
      cl.execLog = .error e → Parse m opts cl jira = .ok (.error e))
    ∧ (∀ (m : Matchers) (opts : Options) (cl : Client) (jira : JiraClientM) (out e : String),
      cl.execLog = .ok out → Parse m opts cl jira = .ok (.error e) →
      ∃ rec ∈ (splitOnStr separator out).drop 1, ∃ hs,
        recordShortHash m opts jira rec = some hs ∧ cl.diffTree hs = .error e)
    ∧ (∀ (m : Matchers) (opts : Options) (cl : Client) (jira : JiraClientM) (out : String),
      cl.execLog = .ok out →
      (∀ rec ∈ (splitOnStr separator out).drop 1,
        ∃ c, parseCommit m opts cl jira rec = .ok (.ok c)) →
      ∃ res, Parse m opts cl jira = .ok (.ok res))
    ∧ (∀ (m : Matchers) (opts : Options) (jira : JiraClientM) (c : CommitData) (e : String),
      jira.getIssue c.jiraIssueID = .error e → processJiraIssue m opts jira c = c) := by
  refine ⟨?_, ?_, ?_, ?_⟩
  · intro m opts cl jira e h
    unfold Parse
    rw [h]
  · intro m opts cl jira out e hlog h
    unfold Parse at h
    rw [hlog] at h
    obtain ⟨rec, hmem, hrec⟩ := parseLines_error m opts cl jira e _ h
    exact ⟨rec, hmem, parseCommit_error_diff m opts cl jira rec e hrec⟩
  · intro m opts cl jira out hlog hall
    obtain ⟨res, hres⟩ := parseLines_ok m opts cl jira _ hall
    refine ⟨res, ?_⟩
    unfold Parse
    rw [hlog]
    exact hres
  · intro m opts jira c e h
    unfold processJiraIssue
    rw [h]

/-- Witness for C9: a client whose log invocation fails propagates its
error, and a client whose log and diff calls succeed parses even though
every Jira lookup fails. -/
theorem parse_error_propagation_witness :
    Parse scMatchers scOptions ⟨.error "boom", fun _ => .error "unused"⟩ scJira
      = .ok (.error "boom")
    ∧ processJiraIssue scMatchers scOptions scJira { header := "x" } = { header := "x" } :=
  ⟨parse_error_propagation.1 scMatchers scOptions
      ⟨.error "boom", fun _ => .error "unused"⟩ scJira "boom" rfl,
   parse_error_propagation.2.2.2 scMatchers scOptions scJira { header := "x" } "jira unavailable" rfl⟩

end Chglog
